import Mathlib

/-!
Shallow embedding of the `btree` crate (`src/lib.rs`): an on-disk B+Tree stub
consisting of a data file, a write-ahead log (WAL), and an in-memory overlay
(`mem_tree`).  File contents are modelled as lists of byte values (`Nat`),
the two files of an index are carried explicitly in the state, and the
external binary codec (bincode) is a parameter: `enc`/`decRec` encode and
decode a `WALRecord` (a key/value pair), `decNode` decodes a `Node`.
-/

set_option autoImplicit false
set_option linter.unusedVariables false
set_option linter.unusedSectionVars false

namespace BTreeSpec

/-- File contents: a list of byte values. -/
abbrev Bytes := List Nat

/-- `NUM_CHILDREN` from `lib.rs` line 19. -/
def NUM_CHILDREN : Nat := 32

/-- `FILE_HEADER = "B+Tree\0"` (`lib.rs` line 20), as its 7 bytes. -/
def FILE_HEADER : Bytes := [0x42, 0x2B, 0x54, 0x72, 0x65, 0x65, 0x00]

/-- `CURRENT_VERSION` from `lib.rs` line 21. -/
def CURRENT_VERSION : Nat := 0x01

/-- `Payload<K,V>` (`lib.rs` lines 31-35): either a leaf value or a list of
`(key, child offset)` pairs (the fixed-size array is modelled as a list;
its shape only matters through the decoding parameter `decNode`). -/
inductive Payload (K V : Type) where
  | value (v : V)
  | children (cs : List (K × Nat))
deriving DecidableEq

/-- `Node<K,V>` (`lib.rs` lines 37-42); `parent : u64` modelled as `Nat`. -/
structure Node (K V : Type) where
  key : K
  parent : Nat
  payload : Payload K V
deriving DecidableEq

/-- The error cases the crate can produce, by source:
`ioErr` for propagated I/O errors (such as `read_exact` hitting end of file),
`utf8Err` for `str::from_utf8` failures on the header bytes,
`decodeErr` for bincode decode failures,
`sizeLimitErr` for bincode's `SizeLimit::Bounded` being exceeded during encode,
`invalidData msg` for the two `io::Error::new(ErrorKind::InvalidData, msg)`
values constructed in `lib.rs` (lines 136 and 179). -/
inductive BErr where
  | ioErr
  | utf8Err
  | decodeErr
  | sizeLimitErr
  | invalidData (msg : String)
deriving DecidableEq

deriving instance DecidableEq for Except

/-- The in-memory overlay `mem_tree : BTreeMap<K, BTreeSet<V>>`, modelled as a
key-sorted association list whose value sets are sorted duplicate-free lists. -/
abbrev MemTree (K V : Type) := List (K × List V)

/-- `BTreeSet::insert`: insert `v` into the sorted duplicate-free list `l`,
keeping the existing element when `v` is already present. -/
def insertSortedSet {V : Type} [LinearOrder V] (v : V) : List V → List V
  | [] => [v]
  | w :: ws =>
      if v < w then v :: w :: ws
      else if v = w then w :: ws
      else w :: insertSortedSet v ws

/-- `mem_tree.entry(key).or_insert(BTreeSet::new()).insert(value)`
(`lib.rs` lines 93 and 189): find or create the entry for `k`, then insert
`v` into its value set. -/
def memTreeInsert {K V : Type} [LinearOrder K] [LinearOrder V] (k : K) (v : V) :
    MemTree K V → MemTree K V
  | [] => [(k, [v])]
  | (k', vs) :: rest =>
      if k < k' then (k, [v]) :: (k', vs) :: rest
      else if k = k' then (k', insertSortedSet v vs) :: rest
      else (k', vs) :: memTreeInsert k v rest

/-- Look up the value set stored under `k` (the empty set when `k` is absent). -/
def memTreeGet {K V : Type} [LinearOrder K] (k : K) : MemTree K V → List V
  | [] => []
  | (k', vs) :: rest => if k = k' then vs else memTreeGet k rest

/-- One byte of a UTF-8 continuation (`10xxxxxx`). -/
def utf8ContByte (b : Nat) : Bool := decide (0x80 ≤ b ∧ b ≤ 0xBF)

/-- Validity of a byte string as UTF-8, as checked by `str::from_utf8`
(`lib.rs` line 134): ASCII, 2-byte (C2-DF), 3-byte (E0-EF, rejecting
overlong E0 80-9F and surrogates ED A0-BF) and 4-byte (F0-F4, rejecting
overlong F0 80-8F and values above U+10FFFF) sequences. -/
def utf8Valid : Bytes → Bool
  | [] => true
  | b :: rest =>
      if b ≤ 0x7F then utf8Valid rest
      else if b < 0xC2 then false
      else if b ≤ 0xDF then
        match rest with
        | c1 :: r => utf8ContByte c1 && utf8Valid r
        | [] => false
      else if b ≤ 0xEF then
        match rest with
        | c1 :: c2 :: r =>
            (if b = 0xE0 then decide (0xA0 ≤ c1 ∧ c1 ≤ 0xBF)
             else if b = 0xED then decide (0x80 ≤ c1 ∧ c1 ≤ 0x9F)
             else utf8ContByte c1) && utf8ContByte c2 && utf8Valid r
        | _ => false
      else if b ≤ 0xF4 then
        match rest with
        | c1 :: c2 :: c3 :: r =>
            (if b = 0xF0 then decide (0x90 ≤ c1 ∧ c1 ≤ 0xBF)
             else if b = 0xF4 then decide (0x80 ≤ c1 ∧ c1 ≤ 0x8F)
             else utf8ContByte c1) && utf8ContByte c2 && utf8ContByte c3 && utf8Valid r
        | _ => false
      else false

/-- `BTree<K,V>` (`lib.rs` lines 67-74).  The `File` handles are replaced by
the byte contents of the two files; everything else is field for field. -/
structure BTreeState (K V : Type) where
  tree_file : Bytes
  wal_file : Bytes
  root : Option (Node K V)
  max_key_size : Nat
  max_value_size : Nat
  mem_tree : MemTree K V
deriving DecidableEq

/-- The WAL replay loop of `BTree::new` (`lib.rs` lines 89-101): read
`record_size`-byte chunks, decode each as a `WALRecord` and add it to the
overlay; a decode failure is propagated; `read_exact` hitting end of file
(whether exactly at a chunk boundary or inside a partial trailing chunk)
raises `UnexpectedEof`, which the source breaks on.  `record_size = 0`
(excluded by the crate's contract of positive size bounds, and under which
the source loop could never terminate) is modelled as immediate clean EOF. -/
def replayWAL {K V : Type} [LinearOrder K] [LinearOrder V]
    (decRec : Bytes → Option (K × V)) (rs : Nat) (data : Bytes)
    (acc : MemTree K V) : Except BErr (MemTree K V) :=
  if h : 0 < rs ∧ rs ≤ data.length then
    match decRec (data.take rs) with
    | none => .error .decodeErr
    | some kv => replayWAL decRec rs (data.drop rs) (memTreeInsert kv.1 kv.2 acc)
  else
    .ok acc
termination_by data.length
decreasing_by simp [List.length_drop]; omega

/-- `node_size` as computed in `BTree::new` (`lib.rs` line 105);
`size_of::<u64>() = 8`. -/
def node_size (max_key_size max_value_size : Nat) : Nat :=
  max_key_size + 8 + max max_value_size ((max_key_size + 8) * NUM_CHILDREN)

/-- The part of `BTree::new` after WAL replay (`lib.rs` lines 104-166),
given the overlay `mem_tree` the replay produced: write the 8-byte header
into an empty data file, otherwise validate the header and decode the root
node from the trailing `node_size` bytes when the file is long enough. -/
def newWithOverlay {K V : Type}
    (decNode : Bytes → Option (Node K V)) (wal0 tree0 : Bytes)
    (max_key_size max_value_size : Nat) (mem_tree : MemTree K V) :
    Except BErr (BTreeState K V) :=
  let ns := node_size max_key_size max_value_size
  if tree0.length = 0 then
    .ok ⟨FILE_HEADER ++ [CURRENT_VERSION], wal0, none,
         max_key_size, max_value_size, mem_tree⟩
  else if tree0.length < 8 then
    -- `read_exact` into the 8-byte `version_string` hits end of file
    .error .ioErr
  else
    let version_string := tree0.take 8
    if utf8Valid (version_string.take FILE_HEADER.length) = false then
      .error .utf8Err
    else if version_string.take FILE_HEADER.length ≠ FILE_HEADER ∨
        version_string[FILE_HEADER.length]? ≠ some CURRENT_VERSION then
      .error (.invalidData "Invalid BTree file or BTree version")
    else if tree0.length < 8 + ns then
      .ok ⟨tree0, wal0, none, max_key_size, max_value_size, mem_tree⟩
    else
      match decNode (tree0.drop (tree0.length - ns)) with
      | none => .error .decodeErr
      | some root_node =>
          .ok ⟨tree0, wal0, some root_node, max_key_size, max_value_size, mem_tree⟩

/-- `BTree::new` (`lib.rs` lines 77-167).  `wal0` and `tree0` are the
contents of the WAL file and the data file found at the path (`[]` for a
file that did not exist, since `create(true)` makes an empty one).
Replays a nonempty WAL into the overlay (propagating its errors, as the
source's `try!` calls do), then proceeds with the data file. -/
def BTree.new {K V : Type} [LinearOrder K] [LinearOrder V]
    (decRec : Bytes → Option (K × V)) (decNode : Bytes → Option (Node K V))
    (wal0 tree0 : Bytes) (max_key_size max_value_size : Nat) :
    Except BErr (BTreeState K V) :=
  let record_size := max_key_size + max_value_size
  (if wal0.length ≠ 0 then replayWAL decRec record_size wal0 [] else .ok []).bind
    (newWithOverlay decNode wal0 tree0 max_key_size max_value_size)

/-- bincode `encode(&record, SizeLimit::Bounded(bound))` (`lib.rs` line 175):
the codec's contract is that encoding fails with a size-limit error rather
than ever producing more than `bound` bytes. -/
def encodeBounded (buff : Bytes) (bound : Nat) : Except BErr Bytes :=
  if buff.length ≤ bound then .ok buff else .error .sizeLimitErr

/-- `BTree::insert` (`lib.rs` lines 170-192).  Returns the state after the
call together with the result, so that the error paths visibly leave the
state unchanged.  On success the encoded record is zero-padded to
`max_key_size + max_value_size` bytes, appended to the WAL, and the pair is
added to the overlay; the padded length is returned. -/
def BTree.insert {K V : Type} [LinearOrder K] [LinearOrder V]
    (enc : K → V → Bytes) (st : BTreeState K V) (key : K) (value : V) :
    BTreeState K V × Except BErr Nat :=
  let record_size := st.max_key_size + st.max_value_size
  match encodeBounded (enc key value) record_size with
  | .error e => (st, .error e)
  | .ok buff0 =>
      if st.max_key_size + st.max_value_size < buff0.length then
        (st, .error (.invalidData "Key and value size are too large"))
      else
        let buff := buff0 ++ List.replicate ((st.max_key_size + st.max_value_size) - buff0.length) 0
        ({ st with wal_file := st.wal_file ++ buff,
                   mem_tree := memTreeInsert key value st.mem_tree },
         .ok buff.length)

/-- `BTree::compact` (`lib.rs` lines 194-197): the body is empty. -/
def BTree.compact {K V : Type} (st : BTreeState K V) : BTreeState K V := st

section OverlayLemmas

variable {K V : Type} [LinearOrder K] [LinearOrder V]

theorem mem_insertSortedSet_self (v : V) (l : List V) : v ∈ insertSortedSet v l := by
  induction l with
  | nil => simp [insertSortedSet]
  | cons w ws ih =>
      by_cases h1 : v < w
      · simp [insertSortedSet, h1]
      · by_cases h2 : v = w
        · simp [insertSortedSet, h1, h2]
        · simp only [insertSortedSet, if_neg h1, if_neg h2, List.mem_cons]
          exact Or.inr ih

theorem mem_insertSortedSet_of_mem (v u : V) (l : List V) (h : u ∈ l) :
    u ∈ insertSortedSet v l := by
  induction l with
  | nil => cases h
  | cons w ws ih =>
      by_cases h1 : v < w
      · simp only [insertSortedSet, if_pos h1, List.mem_cons]
        exact Or.inr (List.mem_cons.mp h)
      · by_cases h2 : v = w
        · simpa [insertSortedSet, h1, h2] using h
        · simp only [insertSortedSet, if_neg h1, if_neg h2, List.mem_cons]
          rcases List.mem_cons.mp h with h | h
          · exact Or.inl h
          · exact Or.inr (ih h)

theorem insertSortedSet_idem (v : V) (l : List V) :
    insertSortedSet v (insertSortedSet v l) = insertSortedSet v l := by
  induction l with
  | nil => simp [insertSortedSet, lt_irrefl]
  | cons w ws ih =>
      by_cases h1 : v < w
      · simp [insertSortedSet, h1, lt_irrefl]
      · by_cases h2 : v = w
        · simp [insertSortedSet, h1, h2, lt_irrefl]
        · simp [insertSortedSet, h1, h2, ih]

theorem mem_memTreeGet_memTreeInsert_self (k : K) (v : V) (m : MemTree K V) :
    v ∈ memTreeGet k (memTreeInsert k v m) := by
  induction m with
  | nil => simp [memTreeInsert, memTreeGet]
  | cons p rest ih =>
      obtain ⟨k', vs⟩ := p
      by_cases h1 : k < k'
      · simp [memTreeInsert, memTreeGet, h1]
      · by_cases h2 : k = k'
        · simpa [memTreeInsert, memTreeGet, h1, h2] using
            mem_insertSortedSet_self v vs
        · simpa [memTreeInsert, memTreeGet, h1, h2] using ih

theorem memTreeGet_memTreeInsert_twice (k : K) (v w : V) (m : MemTree K V) :
    memTreeGet k (memTreeInsert k v (memTreeInsert k w m)) =
      insertSortedSet v (memTreeGet k (memTreeInsert k w m)) := by
  induction m with
  | nil => simp [memTreeInsert, memTreeGet, lt_irrefl]
  | cons p rest ih =>
      obtain ⟨k', vs⟩ := p
      by_cases h1 : k < k'
      · simp [memTreeInsert, memTreeGet, h1, lt_irrefl]
      · by_cases h2 : k = k'
        · simp [memTreeInsert, memTreeGet, h1, h2, lt_irrefl]
        · simp [memTreeInsert, memTreeGet, h1, h2, ih]

theorem memTreeGet_memTreeInsert_eq_insertSortedSet (k : K) (v : V) (m : MemTree K V) :
    ∃ l : List V, memTreeGet k (memTreeInsert k v m) = insertSortedSet v l := by
  induction m with
  | nil => exact ⟨[], by simp [memTreeInsert, memTreeGet, insertSortedSet]⟩
  | cons p rest ih =>
      obtain ⟨k', vs⟩ := p
      by_cases h1 : k < k'
      · exact ⟨[], by simp [memTreeInsert, memTreeGet, h1, insertSortedSet]⟩
      · by_cases h2 : k = k'
        · exact ⟨vs, by simp [memTreeInsert, memTreeGet, h1, h2]⟩
        · obtain ⟨l, hl⟩ := ih
          exact ⟨l, by simpa [memTreeInsert, memTreeGet, h1, h2] using hl⟩

end OverlayLemmas

section ReplayLemmas

variable {K V : Type} [LinearOrder K] [LinearOrder V]
variable (decRec : Bytes → Option (K × V))

theorem replayWAL_of_lt (rs : Nat) (data : Bytes) (acc : MemTree K V)
    (h : data.length < rs) : replayWAL decRec rs data acc = .ok acc := by
  rw [replayWAL, dif_neg]
  rintro ⟨h1, h2⟩
  omega

theorem replayWAL_nil (rs : Nat) (acc : MemTree K V) :
    replayWAL decRec rs [] acc = .ok acc := by
  rw [replayWAL, dif_neg]
  rintro ⟨h1, h2⟩
  simp at h2
  omega

theorem replayWAL_cons (rs : Nat) (data : Bytes) (acc : MemTree K V)
    (h1 : 0 < rs) (h2 : rs ≤ data.length) :
    replayWAL decRec rs data acc =
      match decRec (data.take rs) with
      | none => .error .decodeErr
      | some kv => replayWAL decRec rs (data.drop rs) (memTreeInsert kv.1 kv.2 acc) := by
  rw [replayWAL, dif_pos ⟨h1, h2⟩]

theorem replayWAL_append (rs : Nat) (xs ys : Bytes) (acc : MemTree K V)
    (hdvd : rs ∣ xs.length) :
    replayWAL decRec rs (xs ++ ys) acc =
      (replayWAL decRec rs xs acc).bind (fun m => replayWAL decRec rs ys m) := by
  have H : ∀ n (xs : Bytes), xs.length = n → ∀ acc : MemTree K V, rs ∣ xs.length →
      replayWAL decRec rs (xs ++ ys) acc =
        (replayWAL decRec rs xs acc).bind (fun m => replayWAL decRec rs ys m) := by
    intro n
    induction n using Nat.strong_induction_on with
    | _ n ih =>
        intro xs hn acc hdvd
        by_cases hx : 0 < rs ∧ rs ≤ xs.length
        · rw [replayWAL_cons decRec rs (xs ++ ys) acc hx.1
            (by simp only [List.length_append]; omega)]
          rw [List.take_append_of_le_length hx.2, List.drop_append_of_le_length hx.2]
          rw [replayWAL_cons decRec rs xs acc hx.1 hx.2]
          cases hdec : decRec (xs.take rs) with
          | none => rfl
          | some kv =>
              have hlt : (xs.drop rs).length < n := by
                simp only [List.length_drop]
                omega
              have hdvd' : rs ∣ (xs.drop rs).length := by
                simp only [List.length_drop]
                exact Nat.dvd_sub' hdvd dvd_rfl
              show replayWAL decRec rs (xs.drop rs ++ ys) (memTreeInsert kv.1 kv.2 acc) =
                (replayWAL decRec rs (xs.drop rs) (memTreeInsert kv.1 kv.2 acc)).bind
                  fun m => replayWAL decRec rs ys m
              exact ih (xs.drop rs).length hlt (xs.drop rs) rfl _ hdvd'
        · have hxnil : xs = [] := by
            push_neg at hx
            rcases Nat.eq_zero_or_pos rs with hrs | hrs
            · subst hrs
              exact List.eq_nil_of_length_eq_zero (eq_zero_of_zero_dvd hdvd)
            · exact List.eq_nil_of_length_eq_zero
                (Nat.eq_zero_of_dvd_of_lt hdvd (by omega))
          subst hxnil
          rw [List.nil_append, replayWAL_nil]
          rfl
  exact H xs.length xs rfl acc hdvd

theorem replayWAL_snoc (rs : Nat) (xs chunk : Bytes) (acc m : MemTree K V) (k : K) (v : V)
    (hdvd : rs ∣ xs.length) (hrs : 0 < rs) (hlen : chunk.length = rs)
    (hdec : decRec chunk = some (k, v))
    (hxs : replayWAL decRec rs xs acc = .ok m) :
    replayWAL decRec rs (xs ++ chunk) acc = .ok (memTreeInsert k v m) := by
  rw [replayWAL_append decRec rs xs chunk acc hdvd, hxs]
  show replayWAL decRec rs chunk m = _
  rw [replayWAL_cons decRec rs chunk m hrs (le_of_eq hlen.symm)]
  rw [List.take_of_length_le (le_of_eq hlen), hdec]
  show replayWAL decRec rs (chunk.drop rs) _ = _
  rw [List.drop_of_length_le (le_of_eq hlen), replayWAL_nil]

end ReplayLemmas

section Inversion

variable {K V : Type} [LinearOrder K] [LinearOrder V]

/-- What a successful `BTree::insert` did: the encoded record fit the bound,
the returned count is the full record width, and the new state appends the
zero-padded record to the WAL and adds the pair to the overlay. -/
theorem insert_ok (enc : K → V → Bytes) (st st' : BTreeState K V) (k : K) (v : V) (n : Nat)
    (h : BTree.insert enc st k v = (st', .ok n)) :
    (enc k v).length ≤ st.max_key_size + st.max_value_size ∧
    n = st.max_key_size + st.max_value_size ∧
    st' = { st with
      wal_file := st.wal_file ++
        (enc k v ++ List.replicate (st.max_key_size + st.max_value_size - (enc k v).length) 0),
      mem_tree := memTreeInsert k v st.mem_tree } := by
  by_cases hle : (enc k v).length ≤ st.max_key_size + st.max_value_size
  · simp only [BTree.insert, encodeBounded, if_pos hle] at h
    rw [if_neg (Nat.not_lt.mpr hle)] at h
    simp only [Prod.mk.injEq, Except.ok.injEq] at h
    obtain ⟨hst, hn⟩ := h
    refine ⟨hle, ?_, hst.symm⟩
    rw [← hn]
    simp only [List.length_append, List.length_replicate]
    omega
  · simp only [BTree.insert, encodeBounded, if_neg hle] at h
    exact absurd h (by simp)

/-- What a successful `newWithOverlay` guarantees about the returned state:
the WAL contents, size bounds and overlay are stored as given. -/
theorem newWithOverlay_ok (decNode : Bytes → Option (Node K V))
    (wal0 tree0 : Bytes) (mks mvs : Nat) (mem : MemTree K V) (st : BTreeState K V)
    (h : newWithOverlay decNode wal0 tree0 mks mvs mem = .ok st) :
    st.wal_file = wal0 ∧ st.max_key_size = mks ∧ st.max_value_size = mvs ∧
    st.mem_tree = mem := by
  simp only [newWithOverlay] at h
  repeat' split at h
  all_goals first
    | (injection h with h; subst h; exact ⟨rfl, rfl, rfl, rfl⟩)
    | injection h

/-- What a successful `BTree::new` guarantees about the returned state:
the WAL contents and size bounds are stored as given, and the overlay is
exactly the result of replaying the WAL. -/
theorem new_ok (decRec : Bytes → Option (K × V)) (decNode : Bytes → Option (Node K V))
    (wal0 tree0 : Bytes) (mks mvs : Nat) (st : BTreeState K V)
    (h : BTree.new decRec decNode wal0 tree0 mks mvs = .ok st) :
    st.wal_file = wal0 ∧ st.max_key_size = mks ∧ st.max_value_size = mvs ∧
    replayWAL decRec (mks + mvs) wal0 [] = .ok st.mem_tree := by
  simp only [BTree.new] at h
  cases hrep : (if wal0.length ≠ 0 then replayWAL decRec (mks + mvs) wal0 [] else Except.ok []) with
  | error e =>
      rw [hrep] at h
      exact absurd h (by simp [Except.bind])
  | ok mem =>
      rw [hrep] at h
      simp only [Except.bind] at h
      have hrep' : replayWAL decRec (mks + mvs) wal0 [] = .ok mem := by
        by_cases hw : wal0.length ≠ 0
        · rwa [if_pos hw] at hrep
        · rw [if_neg hw] at hrep
          have hnil : wal0 = [] := List.eq_nil_of_length_eq_zero (by omega)
          subst hnil
          rw [replayWAL_nil]
          exact hrep
      obtain ⟨hw, hk, hv, hm⟩ := newWithOverlay_ok _ _ _ _ _ _ _ h
      exact ⟨hw, hk, hv, by rw [hm]; exact hrep'⟩

end Inversion

section Reach

variable {K V : Type} [LinearOrder K] [LinearOrder V]

/-- The bincode codec contract used by the WAL (spec section 4.2): decoding
is the structural inverse of encoding, and a decode reads only its record's
bytes, so the zero padding `insert` appends after the encoded record is
ignored. -/
def RoundTrip {K V : Type} (enc : K → V → Bytes) (decRec : Bytes → Option (K × V))
    (rs : Nat) : Prop :=
  ∀ (k : K) (v : V), (enc k v).length ≤ rs →
    decRec (enc k v ++ List.replicate (rs - (enc k v).length) 0) = some (k, v)

/-- Index states produced by the public API: `BTree::new` on a well-formed
WAL (a whole number of `record_size`-byte records, which is what every WAL
written by the API itself contains), followed by any number of successful
`BTree::insert` calls. -/
inductive Reachable (decRec : Bytes → Option (K × V)) (decNode : Bytes → Option (Node K V))
    (enc : K → V → Bytes) (mks mvs : Nat) : BTreeState K V → Prop where
  | base (wal0 tree0 : Bytes) (st : BTreeState K V)
      (hdvd : (mks + mvs) ∣ wal0.length)
      (hnew : BTree.new decRec decNode wal0 tree0 mks mvs = .ok st) :
      Reachable decRec decNode enc mks mvs st
  | step (st : BTreeState K V) (k : K) (v : V) (st' : BTreeState K V) (n : Nat)
      (hre : Reachable decRec decNode enc mks mvs st)
      (hins : BTree.insert enc st k v = (st', .ok n)) :
      Reachable decRec decNode enc mks mvs st'

/-- Invariant of reachable index states: the stored size bounds are the ones
given at `new`, the WAL is a whole number of records, and replaying the WAL
from an empty overlay reconstructs exactly the current overlay. -/
theorem reachable_invariant
    (decRec : Bytes → Option (K × V)) (decNode : Bytes → Option (Node K V))
    (enc : K → V → Bytes) (mks mvs : Nat) (st : BTreeState K V)
    (hrs : 0 < mks + mvs) (hRT : RoundTrip enc decRec (mks + mvs))
    (hre : Reachable decRec decNode enc mks mvs st) :
    st.max_key_size = mks ∧ st.max_value_size = mvs ∧
    (mks + mvs) ∣ st.wal_file.length ∧
    replayWAL decRec (mks + mvs) st.wal_file [] = .ok st.mem_tree := by
  induction hre with
  | base wal0 tree0 st hdvd hnew =>
      obtain ⟨hw, hk, hv, hrep⟩ := new_ok _ _ _ _ _ _ _ hnew
      refine ⟨hk, hv, ?_, ?_⟩
      · rw [hw]; exact hdvd
      · rw [hw]; exact hrep
  | step st k v st' n hre hins ih =>
      obtain ⟨hk, hv, hdvd, hrep⟩ := ih
      obtain ⟨hle, hn, hst⟩ := insert_ok _ _ _ _ _ _ hins
      subst hst
      rw [hk, hv] at hle
      have hchunk : (enc k v ++ List.replicate (mks + mvs - (enc k v).length) 0).length
          = mks + mvs := by
        simp only [List.length_append, List.length_replicate]
        omega
      refine ⟨hk, hv, ?_, ?_⟩
      · simp only [hk, hv, List.length_append, List.length_replicate]
        have h2 : (enc k v).length + (mks + mvs - (enc k v).length) = mks + mvs := by omega
        rw [h2]
        exact Nat.dvd_add hdvd dvd_rfl
      · simp only [hk, hv]
        exact replayWAL_snoc decRec (mks + mvs) st.wal_file _ [] st.mem_tree k v
          hdvd hrs hchunk (hRT k v hle) hrep

end Reach

/-! Concrete instantiation used to exercise the model: `K = V = Nat` byte
values, a record encoded as its two bytes, decoding reading exactly the
first two bytes of a buffer (ignoring trailing padding), matching bincode
on a pair of `u8` values. -/

def encU (k v : Nat) : Bytes := [k, v]

def decU : Bytes → Option (Nat × Nat)
  | a :: b :: _ => some (a, b)
  | _ => none

def decNodeU : Bytes → Option (Node Nat Nat) :=
  fun _ => some ⟨0, 0, .value 0⟩

theorem roundTrip_encU_decU : RoundTrip encU decU 2 :=
  fun _ _ _ => rfl

/-- The state produced by opening a fresh path with size bounds 1/1. -/
def stFresh : BTreeState Nat Nat :=
  ⟨FILE_HEADER ++ [CURRENT_VERSION], [], none, 1, 1, []⟩

/-- A fresh state with size bounds 1/0, whose record width 1 is exceeded by
every `encU` record. -/
def stNarrow : BTreeState Nat Nat :=
  ⟨FILE_HEADER ++ [CURRENT_VERSION], [], none, 1, 0, []⟩

/-- `stFresh` after `insert(2, 3)`. -/
def stOne : BTreeState Nat Nat :=
  ⟨FILE_HEADER ++ [CURRENT_VERSION], [2, 3], none, 1, 1, [(2, [3])]⟩

/-- `stFresh` after `insert(1, 5)`. -/
def stK1V5 : BTreeState Nat Nat :=
  ⟨FILE_HEADER ++ [CURRENT_VERSION], [1, 5], none, 1, 1, [(1, [5])]⟩

/-- `stK1V5` after `insert(1, 9)`. -/
def stK1V59 : BTreeState Nat Nat :=
  ⟨FILE_HEADER ++ [CURRENT_VERSION], [1, 5, 1, 9], none, 1, 1, [(1, [5, 9])]⟩

/-- `stK1V5` after `insert(1, 5)` again. -/
def stK1V5x2 : BTreeState Nat Nat :=
  ⟨FILE_HEADER ++ [CURRENT_VERSION], [1, 5, 1, 5], none, 1, 1, [(1, [5])]⟩

/-- C2: inserting a pair whose encoded form exceeds
`max_key_size + max_value_size` fails with the size-limit (oversized input)
error from the bounded encode, and the state - in particular the WAL
contents and the overlay - is exactly what it was before the attempt. -/
theorem c2_oversized_insert_rejected {K V : Type} [LinearOrder K] [LinearOrder V]
    (enc : K → V → Bytes) (st : BTreeState K V) (k : K) (v : V)
    (hover : st.max_key_size + st.max_value_size < (enc k v).length) :
    BTree.insert enc st k v = (st, .error .sizeLimitErr) := by
  simp only [BTree.insert, encodeBounded, if_neg (Nat.not_le.mpr hover)]

theorem c2_witness :
    stNarrow.max_key_size + stNarrow.max_value_size < (encU 2 3).length ∧
    BTree.insert encU stNarrow 2 3 = (stNarrow, .error .sizeLimitErr) :=
  ⟨by decide, c2_oversized_insert_rejected encU stNarrow 2 3 (by decide)⟩

/-- C4: every successful insert appends exactly one zero-padded record of
`max_key_size + max_value_size` bytes to the WAL and returns that width. -/
theorem c4_insert_appends_record_width {K V : Type} [LinearOrder K] [LinearOrder V]
    (enc : K → V → Bytes) (st st' : BTreeState K V) (k : K) (v : V) (n : Nat)
    (h : BTree.insert enc st k v = (st', .ok n)) :
    n = st.max_key_size + st.max_value_size ∧
    st'.wal_file = st.wal_file ++
      (enc k v ++ List.replicate (st.max_key_size + st.max_value_size - (enc k v).length) 0) ∧
    st'.wal_file.length = st.wal_file.length + (st.max_key_size + st.max_value_size) := by
  obtain ⟨hle, hn, hst⟩ := insert_ok _ _ _ _ _ _ h
  subst hst
  refine ⟨hn, rfl, ?_⟩
  simp only [List.length_append, List.length_replicate]
  omega

theorem c4_witness :
    (2 = stFresh.max_key_size + stFresh.max_value_size ∧
     stOne.wal_file = stFresh.wal_file ++
       (encU 2 3 ++ List.replicate (stFresh.max_key_size + stFresh.max_value_size - (encU 2 3).length) 0) ∧
     stOne.wal_file.length = stFresh.wal_file.length + (stFresh.max_key_size + stFresh.max_value_size)) ∧
    stOne.wal_file.length = 2 :=
  ⟨c4_insert_appends_record_width encU stFresh stOne 2 3 2 (by decide), by decide⟩

/-- C5: inserting two values under one key leaves both in the overlay's
value set for that key (the first is not overwritten), and re-inserting an
already present (key, value) pair leaves that value set unchanged. -/
theorem c5_multi_value_per_key {K V : Type} [LinearOrder K] [LinearOrder V]
    (enc : K → V → Bytes) (st st1 st2 st3 : BTreeState K V) (k : K) (v1 v2 : V)
    (n1 n2 n3 : Nat)
    (h1 : BTree.insert enc st k v1 = (st1, .ok n1))
    (h2 : BTree.insert enc st1 k v2 = (st2, .ok n2))
    (h3 : BTree.insert enc st1 k v1 = (st3, .ok n3)) :
    (v1 ∈ memTreeGet k st2.mem_tree ∧ v2 ∈ memTreeGet k st2.mem_tree) ∧
    memTreeGet k st3.mem_tree = memTreeGet k st1.mem_tree := by
  obtain ⟨-, -, hs1⟩ := insert_ok _ _ _ _ _ _ h1
  subst hs1
  obtain ⟨-, -, hs2⟩ := insert_ok _ _ _ _ _ _ h2
  subst hs2
  obtain ⟨-, -, hs3⟩ := insert_ok _ _ _ _ _ _ h3
  subst hs3
  refine ⟨⟨?_, ?_⟩, ?_⟩
  · show v1 ∈ memTreeGet k (memTreeInsert k v2 (memTreeInsert k v1 st.mem_tree))
    rw [memTreeGet_memTreeInsert_twice]
    exact mem_insertSortedSet_of_mem _ _ _ (mem_memTreeGet_memTreeInsert_self k v1 st.mem_tree)
  · show v2 ∈ memTreeGet k (memTreeInsert k v2 (memTreeInsert k v1 st.mem_tree))
    rw [memTreeGet_memTreeInsert_twice]
    exact mem_insertSortedSet_self _ _
  · show memTreeGet k (memTreeInsert k v1 (memTreeInsert k v1 st.mem_tree)) =
      memTreeGet k (memTreeInsert k v1 st.mem_tree)
    rw [memTreeGet_memTreeInsert_twice]
    obtain ⟨l, hl⟩ := memTreeGet_memTreeInsert_eq_insertSortedSet k v1 st.mem_tree
    rw [hl, insertSortedSet_idem]

theorem c5_witness :
    ((5 : Nat) ∈ memTreeGet 1 stK1V59.mem_tree ∧ (9 : Nat) ∈ memTreeGet 1 stK1V59.mem_tree) ∧
    memTreeGet 1 stK1V5x2.mem_tree = memTreeGet 1 stK1V5.mem_tree :=
  c5_multi_value_per_key encU stFresh stK1V5 stK1V59 stK1V5x2 1 5 9 2 2 2
    (by decide) (by decide) (by decide)

/-! Concrete evaluations of the WAL replay loop (whose well-founded
recursion the kernel does not unfold on its own) used below. -/

theorem replay_eval_23 : replayWAL decU 2 [2, 3] [] = .ok [(2, [3])] := by
  rw [replayWAL_cons decU 2 [2, 3] [] (by decide) (by decide)]
  exact replayWAL_nil decU 2 [(2, [3])]

theorem replay_eval_237 : replayWAL decU 2 [2, 3, 7] [] = .ok [(2, [3])] := by
  rw [replayWAL_cons decU 2 [2, 3, 7] [] (by decide) (by decide)]
  exact replayWAL_of_lt decU 2 [7] [(2, [3])] (by decide)

theorem replay_eval_23756 :
    replayWAL decU 2 [2, 3, 7, 5, 6] [] = .ok [(2, [3]), (7, [5])] := by
  rw [replayWAL_cons decU 2 [2, 3, 7, 5, 6] [] (by decide) (by decide)]
  show replayWAL decU 2 [7, 5, 6] [(2, [3])] = _
  rw [replayWAL_cons decU 2 [7, 5, 6] [(2, [3])] (by decide) (by decide)]
  exact replayWAL_of_lt decU 2 [6] [(2, [3]), (7, [5])] (by decide)

/-- Opening a fresh path (no data file, no WAL) with bounds 1/1. -/
theorem new_eval_fresh : BTree.new decU decNodeU [] [] 1 1 = .ok stFresh := by
  decide

/-- Reopening with the 2-byte WAL `[2, 3]` and a header-only data file. -/
theorem new_eval_reopen23 :
    BTree.new decU decNodeU [2, 3] (FILE_HEADER ++ [CURRENT_VERSION]) 1 1 = .ok stOne := by
  show (if ([2, 3] : Bytes).length ≠ 0 then replayWAL decU 2 [2, 3] [] else .ok []).bind
      (newWithOverlay decNodeU [2, 3] (FILE_HEADER ++ [CURRENT_VERSION]) 1 1) = _
  rw [if_pos (by decide : ([2, 3] : Bytes).length ≠ 0), replay_eval_23]
  decide

/-- `stFresh` as found when reopening on the corrupt 3-byte WAL `[2, 3, 7]`
(one whole record and a partial trailing chunk). -/
def stBadWal : BTreeState Nat Nat :=
  ⟨FILE_HEADER ++ [CURRENT_VERSION], [2, 3, 7], none, 1, 1, [(2, [3])]⟩

/-- `stBadWal` after `insert(5, 6)`. -/
def stBadWalIns : BTreeState Nat Nat :=
  ⟨FILE_HEADER ++ [CURRENT_VERSION], [2, 3, 7, 5, 6], none, 1, 1, [(2, [3]), (5, [6])]⟩

/-- The index obtained by reopening `stBadWalIns`'s files: replay now pairs
the stray byte 7 with the key byte of the appended record. -/
def stBadWalReopen : BTreeState Nat Nat :=
  ⟨FILE_HEADER ++ [CURRENT_VERSION], [2, 3, 7, 5, 6], none, 1, 1, [(2, [3]), (7, [5])]⟩

/-- Opening on the 3-byte WAL `[2, 3, 7]` succeeds, discarding the partial
trailing chunk. -/
theorem new_eval_237 : BTree.new decU decNodeU [2, 3, 7] [] 1 1 = .ok stBadWal := by
  show (if ([2, 3, 7] : Bytes).length ≠ 0 then replayWAL decU 2 [2, 3, 7] [] else .ok []).bind
      (newWithOverlay decNodeU [2, 3, 7] [] 1 1) = _
  rw [if_pos (by decide : ([2, 3, 7] : Bytes).length ≠ 0), replay_eval_237]
  decide

/-- Reopening on the 5-byte WAL `[2, 3, 7, 5, 6]`. -/
theorem new_eval_23756 :
    BTree.new decU decNodeU [2, 3, 7, 5, 6] (FILE_HEADER ++ [CURRENT_VERSION]) 1 1 =
      .ok stBadWalReopen := by
  show (if ([2, 3, 7, 5, 6] : Bytes).length ≠ 0 then replayWAL decU 2 [2, 3, 7, 5, 6] [] else .ok []).bind
      (newWithOverlay decNodeU [2, 3, 7, 5, 6] (FILE_HEADER ++ [CURRENT_VERSION]) 1 1) = _
  rw [if_pos (by decide : ([2, 3, 7, 5, 6] : Bytes).length ≠ 0)]
  rw [replay_eval_23756]
  decide

/-- C1 (amended): for an index whose WAL consists of whole records - as does
the WAL of every index the API itself produces - with a positive record
width and a codec satisfying the bincode round-trip contract, inserting any
number of pairs, closing without compaction, and reopening the same path
with the same size bounds yields an overlay exactly equal to the overlay
before closing. -/
theorem c1_reopen_overlay_eq {K V : Type} [LinearOrder K] [LinearOrder V]
    (decRec : Bytes → Option (K × V)) (decNode decNode2 : Bytes → Option (Node K V))
    (enc : K → V → Bytes) (mks mvs : Nat) (st st2 : BTreeState K V) (tree2 : Bytes)
    (hrs : 0 < mks + mvs) (hRT : RoundTrip enc decRec (mks + mvs))
    (hre : Reachable decRec decNode enc mks mvs st)
    (hnew : BTree.new decRec decNode2 st.wal_file tree2 mks mvs = .ok st2) :
    st2.mem_tree = st.mem_tree := by
  obtain ⟨-, -, -, hrep⟩ := reachable_invariant _ _ _ _ _ _ hrs hRT hre
  obtain ⟨-, -, -, hrep2⟩ := new_ok _ _ _ _ _ _ _ hnew
  rw [hrep] at hrep2
  injection hrep2 with h
  exact h.symm

theorem c1_witness : stOne.mem_tree = stOne.mem_tree :=
  c1_reopen_overlay_eq decU decNodeU decNodeU encU 1 1 stOne stOne stOne.tree_file
    (by decide) roundTrip_encU_decU
    (Reachable.step stFresh 2 3 stOne 2
      (Reachable.base [] [] stFresh (by decide) new_eval_fresh)
      (by decide))
    new_eval_reopen23

/-- C1 counterexample: the claim as stated - for *every* index - fails for
an index opened on a WAL with a partial trailing chunk (here the 3-byte WAL
`[2, 3, 7]` with record width 2): one insert and a reopen with the same
size bounds produce the overlay `{2 : {3}, 7 : {5}}` instead of the overlay
`{2 : {3}, 5 : {6}}` held before closing, even though the codec satisfies
the round-trip contract. -/
theorem c1_counterexample :
    RoundTrip encU decU 2 ∧
    BTree.new decU decNodeU [2, 3, 7] [] 1 1 = .ok stBadWal ∧
    BTree.insert encU stBadWal 5 6 = (stBadWalIns, .ok 2) ∧
    BTree.new decU decNodeU stBadWalIns.wal_file stBadWalIns.tree_file 1 1 =
      .ok stBadWalReopen ∧
    stBadWalReopen.mem_tree ≠ stBadWalIns.mem_tree :=
  ⟨roundTrip_encU_decU, new_eval_237, by decide, new_eval_23756, by decide⟩

/-- C3 (amended): during WAL replay at construction the loop terminates
successfully when a read hits end of file, whether exactly at a
record_size-chunk boundary or inside a partial trailing chunk (whose bytes
are discarded rather than being a fatal error); a decode failure of a full
chunk is a fatal construction error propagated to the caller. -/
theorem c3_replay_eof_clean_decode_fatal {K V : Type} [LinearOrder K] [LinearOrder V]
    (decRec : Bytes → Option (K × V)) (rs : Nat) (data : Bytes) (acc : MemTree K V)
    (hrs : 0 < rs) :
    (data.length < rs → replayWAL decRec rs data acc = .ok acc) ∧
    (rs ≤ data.length → decRec (data.take rs) = none →
      replayWAL decRec rs data acc = .error .decodeErr) := by
  constructor
  · intro h
    exact replayWAL_of_lt decRec rs data acc h
  · intro h hdec
    rw [replayWAL_cons decRec rs data acc hrs h, hdec]

theorem c3_witness : 0 < 2 ∧ replayWAL decU 2 [7] [] = .ok [] :=
  ⟨by decide, (c3_replay_eof_clean_decode_fatal decU 2 [7] [] (by decide)).1 (by decide)⟩

/-- C3 counterexample: constructing an index over the 3-byte WAL
`[2, 3, 7]` with record width 2 - one whole record followed by a partial
trailing chunk - succeeds with the partial chunk silently discarded,
whereas the claim demands that any read failure other than end-of-file
exactly at a chunk boundary be a fatal construction error. -/
theorem c3_counterexample :
    BTree.new decU decNodeU [2, 3, 7] [] 1 1 = .ok stBadWal ∧
    ¬ (2 ∣ ([2, 3, 7] : Bytes).length) :=
  ⟨new_eval_237, by decide⟩

/-- Root loading behaviour of the post-replay part of `BTree::new`, for a
data file with a valid 8-byte header. -/
theorem newWithOverlay_root {K V : Type}
    (decNode : Bytes → Option (Node K V)) (wal0 tree0 : Bytes)
    (mks mvs : Nat) (mem : MemTree K V) (st : BTreeState K V)
    (hvalid : tree0.take 8 = FILE_HEADER ++ [CURRENT_VERSION])
    (h : newWithOverlay decNode wal0 tree0 mks mvs mem = .ok st) :
    st.root = if tree0.length < 8 + node_size mks mvs then none
              else decNode (tree0.drop (tree0.length - node_size mks mvs)) := by
  have hlen8 : 8 ≤ tree0.length := by
    have hl := congrArg List.length hvalid
    rw [List.length_take] at hl
    have h7 : (FILE_HEADER ++ [CURRENT_VERSION] : Bytes).length = 8 := by decide
    rw [h7] at hl
    rcases Nat.le_total 8 tree0.length with h | h
    · exact h
    · rw [Nat.min_eq_right h] at hl
      omega
  simp only [newWithOverlay] at h
  rw [if_neg (show ¬ tree0.length = 0 by omega)] at h
  rw [if_neg (show ¬ tree0.length < 8 by omega)] at h
  rw [hvalid] at h
  rw [if_neg (show ¬ (utf8Valid ((FILE_HEADER ++ [CURRENT_VERSION] : Bytes).take
    FILE_HEADER.length) = false) by decide)] at h
  rw [if_neg (show ¬ ((FILE_HEADER ++ [CURRENT_VERSION] : Bytes).take FILE_HEADER.length
      ≠ FILE_HEADER ∨ (FILE_HEADER ++ [CURRENT_VERSION] : Bytes)[FILE_HEADER.length]?
      ≠ some CURRENT_VERSION) by decide)] at h
  by_cases hsz : tree0.length < 8 + node_size mks mvs
  · rw [if_pos hsz] at h
    injection h with h
    subst h
    rw [if_pos hsz]
  · rw [if_neg hsz] at h
    rw [if_neg hsz]
    split at h
    · injection h
    · next nd heq =>
        injection h with h
        subst h
        exact heq.symm

/-- C6: opening an existing data file with a valid 8-byte header: if the
file is shorter than `8 + node_size` bytes (with
`node_size = max_key_size + 8 + max(max_value_size, (max_key_size+8)*32)`)
the returned index has no cached root; otherwise the cached root is exactly
the node decoded from the trailing `node_size` bytes of the file. -/
theorem c6_root_loading {K V : Type} [LinearOrder K] [LinearOrder V]
    (decRec : Bytes → Option (K × V)) (decNode : Bytes → Option (Node K V))
    (wal0 tree0 : Bytes) (mks mvs : Nat) (st : BTreeState K V)
    (hrs : 0 < mks + mvs)
    (hvalid : tree0.take 8 = FILE_HEADER ++ [CURRENT_VERSION])
    (hok : BTree.new decRec decNode wal0 tree0 mks mvs = .ok st) :
    st.root = if tree0.length < 8 + node_size mks mvs then none
              else decNode (tree0.drop (tree0.length - node_size mks mvs)) := by
  simp only [BTree.new] at hok
  cases hrep : (if wal0.length ≠ 0 then replayWAL decRec (mks + mvs) wal0 [] else Except.ok []) with
  | error e =>
      rw [hrep] at hok
      exact absurd hok (by simp [Except.bind])
  | ok mem =>
      rw [hrep] at hok
      simp only [Except.bind] at hok
      exact newWithOverlay_root _ _ _ _ _ _ _ hvalid hok

/-- The data file of an index persisting a root node: a valid header
followed by one `node_size 1 1 = 297`-byte root slot. -/
def treeWithRoot : Bytes := FILE_HEADER ++ [CURRENT_VERSION] ++ List.replicate 297 0

/-- The index obtained by opening `treeWithRoot` with an empty WAL. -/
def stWithRoot : BTreeState Nat Nat :=
  ⟨treeWithRoot, [], some ⟨0, 0, .value 0⟩, 1, 1, []⟩

set_option maxRecDepth 8000 in
theorem new_eval_root : BTree.new decU decNodeU [] treeWithRoot 1 1 = .ok stWithRoot := by
  decide

theorem c6_witness :
    stWithRoot.root = if treeWithRoot.length < 8 + node_size 1 1 then none
      else decNodeU (treeWithRoot.drop (treeWithRoot.length - node_size 1 1)) :=
  c6_root_loading decU decNodeU [] treeWithRoot 1 1 stWithRoot (by decide) (by decide)
    new_eval_root

/-- C7 (amended): opening (with an empty WAL) an existing non-empty data
file whose first 8 bytes are not the literal header text "B+Tree\x00"
followed by the version byte 0x01 always fails, but the error depends on
how the mismatch manifests: a file shorter than 8 bytes fails with the
end-of-file I/O error raised by `read_exact`, a readable 8-byte prefix
whose first 7 bytes are not valid UTF-8 fails with a UTF-8 decode error,
and any other mismatch fails with the distinct "Invalid BTree file or
BTree version" data-corruption error.  In no case is the file treated as
empty or valid. -/
theorem c7_header_mismatch_rejected {K V : Type} [LinearOrder K] [LinearOrder V]
    (decRec : Bytes → Option (K × V)) (decNode : Bytes → Option (Node K V))
    (tree0 : Bytes) (mks mvs : Nat)
    (hne : tree0 ≠ [])
    (hmm : tree0.take 8 ≠ FILE_HEADER ++ [CURRENT_VERSION]) :
    BTree.new decRec decNode [] tree0 mks mvs =
      .error (if tree0.length < 8 then .ioErr
              else if utf8Valid (tree0.take 7) = false then .utf8Err
              else .invalidData "Invalid BTree file or BTree version") := by
  have hlen0 : ¬ tree0.length = 0 := fun h => hne (List.eq_nil_of_length_eq_zero h)
  show newWithOverlay decNode [] tree0 mks mvs [] = _
  simp only [newWithOverlay]
  rw [if_neg hlen0]
  by_cases h8 : tree0.length < 8
  · rw [if_pos h8, if_pos h8]
  · rw [if_neg h8, if_neg h8]
    have htt : (tree0.take 8).take FILE_HEADER.length = tree0.take 7 := by
      show (tree0.take 8).take 7 = tree0.take 7
      rw [List.take_take]
      norm_num
    rw [htt]
    by_cases hu : utf8Valid (tree0.take 7) = false
    · rw [if_pos hu, if_pos hu]
    · rw [if_neg hu, if_neg hu]
      have hcond : tree0.take 7 ≠ FILE_HEADER ∨
          (tree0.take 8)[FILE_HEADER.length]? ≠ some CURRENT_VERSION := by
        by_contra hc
        push_neg at hc
        obtain ⟨hc1, hc2⟩ := hc
        apply hmm
        have hc2' : tree0[7]? = some CURRENT_VERSION := by
          have : ((tree0.take 8)[7]? : Option Nat) = tree0[7]? :=
            List.getElem?_take_of_lt (by omega)
          rw [← this]
          exact hc2
        calc tree0.take 8 = tree0.take 7 ++ tree0[7]?.toList := List.take_succ
          _ = FILE_HEADER ++ [CURRENT_VERSION] := by rw [hc1, hc2']; rfl
      rw [if_pos hcond]

theorem c7_witness :
    BTree.new decU decNodeU [] (FILE_HEADER ++ [2]) 1 1 =
      .error (if (FILE_HEADER ++ [2] : Bytes).length < 8 then .ioErr
              else if utf8Valid ((FILE_HEADER ++ [2] : Bytes).take 7) = false then .utf8Err
              else .invalidData "Invalid BTree file or BTree version") :=
  c7_header_mismatch_rejected decU decNodeU (FILE_HEADER ++ [2]) 1 1 (by decide) (by decide)

/-- C7 counterexample: the claim as stated demands the distinct
invalid-file data-corruption error for every existing non-empty file not
starting with the 8 header bytes, but a 1-byte file makes the 8-byte
`read_exact` fail first, so opening fails with a generic end-of-file I/O
error instead. -/
theorem c7_counterexample :
    ([0x42] : Bytes) ≠ [] ∧
    ([0x42] : Bytes).take 8 ≠ FILE_HEADER ++ [CURRENT_VERSION] ∧
    BTree.new decU decNodeU [] [0x42] 1 1 = .error .ioErr ∧
    BErr.ioErr ≠ .invalidData "Invalid BTree file or BTree version" :=
  ⟨by decide, by decide, by decide, by decide⟩

/-- C8: for positive size bounds, opening a non-existent path creates a
data file holding exactly the 8 header bytes and an empty WAL, with no
cached root; reopening those very files with the same bounds succeeds and
leaves both files unchanged, still with no cached root. -/
theorem c8_fresh_create_and_reopen {K V : Type} [LinearOrder K] [LinearOrder V]
    (decRec : Bytes → Option (K × V)) (decNode : Bytes → Option (Node K V))
    (mks mvs : Nat) (h1 : 1 ≤ mks) (h2 : 1 ≤ mvs) :
    ∃ st st2 : BTreeState K V,
      BTree.new decRec decNode [] [] mks mvs = .ok st ∧
      st.tree_file.length = 8 ∧ st.wal_file.length = 0 ∧ st.root = none ∧
      BTree.new decRec decNode st.wal_file st.tree_file mks mvs = .ok st2 ∧
      st2.tree_file = st.tree_file ∧ st2.wal_file = st.wal_file ∧ st2.root = none := by
  refine ⟨⟨FILE_HEADER ++ [CURRENT_VERSION], [], none, mks, mvs, []⟩,
          ⟨FILE_HEADER ++ [CURRENT_VERSION], [], none, mks, mvs, []⟩,
          ?_, rfl, rfl, rfl, ?_, rfl, rfl, rfl⟩
  · show newWithOverlay decNode [] [] mks mvs [] = _
    simp [newWithOverlay]
  · show newWithOverlay decNode [] (FILE_HEADER ++ [CURRENT_VERSION]) mks mvs [] = _
    have hlen : (FILE_HEADER ++ [CURRENT_VERSION] : Bytes).length = 8 := by decide
    simp only [newWithOverlay]
    rw [if_neg (by rw [hlen]; omega)]
    rw [if_neg (by rw [hlen]; omega)]
    rw [if_neg (by decide : ¬ (utf8Valid (((FILE_HEADER ++ [CURRENT_VERSION] : Bytes).take 8).take
      FILE_HEADER.length) = false))]
    rw [if_neg (by decide : ¬ (((FILE_HEADER ++ [CURRENT_VERSION] : Bytes).take 8).take
      FILE_HEADER.length ≠ FILE_HEADER ∨
      ((FILE_HEADER ++ [CURRENT_VERSION] : Bytes).take 8)[FILE_HEADER.length]?
      ≠ some CURRENT_VERSION))]
    rw [if_pos]
    · rw [hlen]
      have hb : 0 < node_size mks mvs := by
        unfold node_size
        exact Nat.lt_of_lt_of_le (by omega) (Nat.le_add_right _ _)
      omega

theorem c8_witness :
    ∃ st st2 : BTreeState Nat Nat,
      BTree.new decU decNodeU [] [] 1 1 = .ok st ∧
      st.tree_file.length = 8 ∧ st.wal_file.length = 0 ∧ st.root = none ∧
      BTree.new decU decNodeU st.wal_file st.tree_file 1 1 = .ok st2 ∧
      st2.tree_file = st.tree_file ∧ st2.wal_file = st.wal_file ∧ st2.root = none :=
  c8_fresh_create_and_reopen decU decNodeU 1 1 (by decide) (by decide)

/-- C9: `compact` takes no inputs, always succeeds, and performs no state
change: after a call every component of the index (both files, the root,
the size bounds and the overlay) is unchanged. -/
theorem c9_compact_is_noop {K V : Type} (st : BTreeState K V) :
    BTree.compact st = st ∧
    (BTree.compact st).tree_file = st.tree_file ∧
    (BTree.compact st).wal_file = st.wal_file ∧
    (BTree.compact st).root = st.root ∧
    (BTree.compact st).max_key_size = st.max_key_size ∧
    (BTree.compact st).max_value_size = st.max_value_size ∧
    (BTree.compact st).mem_tree = st.mem_tree :=
  ⟨rfl, rfl, rfl, rfl, rfl, rfl, rfl⟩

/-- C10: after the bounded encode succeeds the buffer is never longer than
`max_key_size + max_value_size`, so the branch returning the "Key and value
size are too large" error is unreachable: no insert ever returns it. -/
theorem c10_too_large_branch_unreachable {K V : Type} [LinearOrder K] [LinearOrder V]
    (enc : K → V → Bytes) (st : BTreeState K V) (k : K) (v : V) :
    (BTree.insert enc st k v).2 ≠ .error (.invalidData "Key and value size are too large") := by
  by_cases hle : (enc k v).length ≤ st.max_key_size + st.max_value_size
  · simp only [BTree.insert, encodeBounded, if_pos hle]
    rw [if_neg (Nat.not_lt.mpr hle)]
    simp
  · simp only [BTree.insert, encodeBounded, if_neg hle]
    simp

end BTreeSpec
